import Mathlib

/-!
Shallow embedding of the `embedded-db` repository (src/kv.rs, src/db.rs,
src/flash.rs).  Machine bytes are `Nat` values below 256, buffers are
`List Nat`, flash memory is a total function `Nat → Nat` from byte address
to byte value.  The `heapless::FnvIndexMap` / `heapless::LinearMap`
containers (external crates) are modelled by their documented contents
semantics: insertion-ordered association lists with a fixed capacity.
-/

namespace EmbeddedDb

/-! ### Byte-level helpers -/

/-- `u32::to_le_bytes`: the four little-endian bytes of `n` (mod 2^32). -/
def le4 (n : Nat) : List Nat :=
  [n % 256, n / 256 % 256, n / 65536 % 256, n / 16777216 % 256]

/-- `u32::from_le_bytes` on four byte values. -/
def decLe4 (a b c d : Nat) : Nat := a + 256 * b + 65536 * c + 16777216 * d

/-- Read a little-endian `u32` at position `pos` of a byte buffer. -/
def readLe4 (l : List Nat) (pos : Nat) : Nat :=
  decLe4 (l.getD pos 0) (l.getD (pos + 1) 0) (l.getD (pos + 2) 0) (l.getD (pos + 3) 0)

/-- `buffer[start..start+len]`. -/
def listSlice (l : List Nat) (start len : Nat) : List Nat := (l.drop start).take len

/-! ### Association-list primitives (contents model of the heapless maps) -/

variable {K V : Type}

/-- Lookup by key: value of the first entry whose key equals `k`. -/
def assocGet [DecidableEq K] : List (K × V) → K → Option V
  | [], _ => none
  | (a, b) :: t, k => if a = k then some b else assocGet t k

/-- Replace the value of the first entry whose key equals `k` (in place). -/
def assocReplace [DecidableEq K] : List (K × V) → K → V → List (K × V)
  | [], _, _ => []
  | (a, b) :: t, k, v => if a = k then (a, v) :: t else (a, b) :: assocReplace t k v

/-- Remove the first entry whose key equals `k`. -/
def assocErase [DecidableEq K] : List (K × V) → K → List (K × V)
  | [], _ => []
  | (a, b) :: t, k => if a = k then t else (a, b) :: assocErase t k

/-! ### `KvStore` (src/kv.rs), backed by `heapless::FnvIndexMap<K, V, N>` -/

structure KvStore (K V : Type) (N : Nat) where
  map : List (K × V)
deriving DecidableEq

namespace KvStore

variable {N : Nat}

def new : KvStore K V N := ⟨[]⟩

def capacity (_ : KvStore K V N) : Nat := N

def len (s : KvStore K V N) : Nat := s.map.length

/-- `FnvIndexMap::is_full`: `len == capacity`. -/
def is_full (s : KvStore K V N) : Prop := s.map.length = N

instance (s : KvStore K V N) : Decidable s.is_full := by
  unfold is_full; infer_instance

def get [DecidableEq K] (s : KvStore K V N) (k : K) : Option V := assocGet s.map k

def clear (_ : KvStore K V N) : KvStore K V N := ⟨[]⟩

/-- src/kv.rs `KvStore::put`: reject when full and the key is absent,
otherwise insert (append, preserving insertion order) or overwrite in
place, returning the previous value. -/
def put [DecidableEq K] (s : KvStore K V N) (k : K) (v : V) :
    Except (K × V) (Option V × KvStore K V N) :=
  if s.map.length = N ∧ (assocGet s.map k).isNone then .error (k, v)
  else
    match assocGet s.map k with
    | some old => .ok (some old, ⟨assocReplace s.map k v⟩)
    | none => .ok (none, ⟨s.map ++ [(k, v)]⟩)

/-- src/kv.rs `KvStore::remove` (first—and for a map, only—occurrence). -/
def remove [DecidableEq K] (s : KvStore K V N) (k : K) :
    Option V × KvStore K V N :=
  (assocGet s.map k, ⟨assocErase s.map k⟩)

end KvStore

/-! ### Errors (src/db.rs `FlashError` of the database layer) -/

inductive DbFlashError
  | SerializationError
  | DeserializationError
  | BufferTooSmall
  | EraseError
  | WriteError
  | ReadError
  | DatabaseFull
deriving DecidableEq

/-- Result of an operation that, in the Rust source, can also panic
(e.g. a slice-index or `copy_from_slice` length violation).  `crash`
marks exactly the executions on which the Rust code panics. -/
inductive Outcome (α : Type)
  | ok (a : α)
  | err (e : DbFlashError)
  | crash
deriving DecidableEq

/-! ### `Database` (src/db.rs) -/

structure Database (K V : Type) (N B CACH : Nat) where
  blobs : KvStore K (List Nat) N
  cache : List (K × V)
deriving DecidableEq

namespace Database

variable {N B CACH : Nat}

def new : Database K V N B CACH := ⟨KvStore.new, []⟩

def len (db : Database K V N B CACH) : Nat := db.blobs.len

def capacity (_ : Database K V N B CACH) : Nat := N

/-- The cache-eviction-then-insert step shared by `put` and `get`
(src/db.rs lines 50–56 and 72–78): if the `LinearMap` cache is full,
remove the first entry its iterator yields (its head), then insert the
new pair (replace when present, append when room remains, silently drop
otherwise — the source discards the `insert` result with `let _ =`). -/
def cachePutEvict [DecidableEq K] (CACH : Nat) (c : List (K × V)) (k : K) (v : V) :
    List (K × V) :=
  let c1 := if c.length = CACH then c.tail else c
  match assocGet c1 k with
  | some _ => assocReplace c1 k v
  | none => if c1.length = CACH then c1 else c1 ++ [(k, v)]

/-- src/db.rs `Database::put`.  `vEnc` models `C::encode` applied to a
scratch buffer of length `B` (its `Option` failure is the codec error);
the encoded bytes are copied into a `Vec<u8, B>` (fails when longer than
`B`), stored in the `KvStore`, and only then is the cache touched.
`none` models the `Err(())` return, on which `self` is left unchanged. -/
def put [DecidableEq K] (vEnc : Nat → V → Option (List Nat))
    (db : Database K V N B CACH) (k : K) (v : V) : Option (Database K V N B CACH) :=
  match vEnc B v with
  | none => none
  | some bs =>
    if bs.length > B then none
    else
      match db.blobs.put k bs with
      | .error _ => none
      | .ok (_, blobs') => some ⟨blobs', cachePutEvict CACH db.cache k v⟩

/-- src/db.rs `Database::get`: cache hit returns directly; otherwise the
blob is looked up, decoded (`none` models the `Err(())` on decode
failure), and the decoded value populates the cache. -/
def get [DecidableEq K] (vDec : List Nat → Option V)
    (db : Database K V N B CACH) (k : K) :
    Option (Option V × Database K V N B CACH) :=
  match assocGet db.cache k with
  | some v => some (some v, db)
  | none =>
    match db.blobs.get k with
    | none => some (none, db)
    | some bs =>
      match vDec bs with
      | none => none
      | some val => some (some val, { db with cache := cachePutEvict CACH db.cache k val })

/-- src/db.rs `Database::get_uncached`: decode straight from the
`KvStore`, never touching the cache. -/
def get_uncached [DecidableEq K] (vDec : List Nat → Option V)
    (db : Database K V N B CACH) (k : K) : Option (Option V) :=
  match db.blobs.get k with
  | none => some none
  | some bs => (vDec bs).map some

/-- src/db.rs `Database::delete`: remove from the store and from the
cache; report whether the store held the key. -/
def delete [DecidableEq K] (db : Database K V N B CACH) (k : K) :
    Bool × Database K V N B CACH :=
  let (removed, blobs') := db.blobs.remove k
  (removed.isSome, ⟨blobs', assocErase db.cache k⟩)

end Database

/-! ### `FlashStorage` driver (src/flash.rs)

Flash memory is a total function from byte address to byte value.  The
hardware register dance (NVMC config/ready polling) has no observable
effect beyond the memory contents and is not represented; a volatile
word write lands its four little-endian bytes at the word's address.
NOR-flash 1→0-only physics applies to regions that were not erased
first, a precondition the driver documents but does not check; the
writes the repository performs always target freshly erased bytes, for
which plain overwrite is exact. -/

def PAGE_SIZE : Nat := 4096

def WRITE_ALIGNMENT : Nat := 4

inductive HwFlashError
  | OutOfBounds
  | Unaligned
  | Other
deriving DecidableEq

/-- Overwrite `data.length` bytes of `mem` starting at `off`. -/
def writeImg (mem : Nat → Nat) (off : Nat) (data : List Nat) : Nat → Nat :=
  fun a => if off ≤ a ∧ a < off + data.length then data.getD (a - off) 0 else mem a

/-- Set every byte in `[from, to)` to the erased pattern `0xFF`. -/
def eraseRange (mem : Nat → Nat) (lo hi : Nat) : Nat → Nat :=
  fun a => if lo ≤ a ∧ a < hi then 255 else mem a

/-- The bytes a full-plus-partial-word sequence of volatile writes puts
down: `data` followed by `0xFF` padding up to the next word boundary
(src/flash.rs lines 88–127). -/
def padToWord (data : List Nat) : List Nat :=
  data ++ List.replicate ((4 - data.length % 4) % 4) 255

namespace FlashStorage

/-- src/flash.rs `FlashStorage::write_bytes`: a non-word-aligned offset
is rejected with `OutOfBounds` (the `Unaligned` variant exists but is
not used here) before any hardware write; otherwise the data, padded
with 1-bits to a full word, is written. -/
def write_bytes (mem : Nat → Nat) (offset : Nat) (data : List Nat) :
    Except HwFlashError (Nat → Nat) :=
  if offset % WRITE_ALIGNMENT ≠ 0 then .error .OutOfBounds
  else .ok (writeImg mem offset (padToWord data))

/-- src/flash.rs `NorFlash::erase` for `FlashStorage`: both bounds must
be page multiples (else `Other`, before touching hardware); then each
page in `[from, to)` is erased via `erase_page`, whose own alignment
check always passes. -/
def erase (mem : Nat → Nat) (lo hi : Nat) :
    Except HwFlashError (Nat → Nat) :=
  if lo % PAGE_SIZE ≠ 0 ∨ hi % PAGE_SIZE ≠ 0 then .error .Other
  else .ok (eraseRange mem lo hi)

/-- src/flash.rs `FlashStorage::read_bytes` / `ReadNorFlash::read`: an
unchecked raw copy of `len` bytes from `offset`; it never fails and in
particular performs no bounds check against the 64 KiB region. -/
def read (mem : Nat → Nat) (offset len : Nat) :
    Except HwFlashError (List Nat) :=
  .ok ((List.range len).map fun i => mem (offset + i))

/-- src/flash.rs `ReadNorFlash::capacity`: the reserved 64 KiB region. -/
def capacity : Nat := 64 * 1024

/-- src/flash.rs `NorFlash::write`: delegates to `write_bytes`. -/
def write (mem : Nat → Nat) (offset : Nat) (data : List Nat) :
    Except HwFlashError (Nat → Nat) :=
  write_bytes mem offset data

end FlashStorage

/-- The byte window `read` yields (it always succeeds). -/
def readBytesF (mem : Nat → Nat) (offset len : Nat) : List Nat :=
  (List.range len).map fun i => mem (offset + i)

/-! ### `save_to_flash` / `load_from_flash` (src/db.rs lines 111–255) -/

variable {N B CACH : Nat}

def MAX_SERIALIZED_SIZE : Nat := 8192

/-- The staging loop of `save_to_flash` (src/db.rs lines 131–152),
reached only with `flash_size = 4` (any other value already crashed on
the header copy).  The staging buffer is represented by the bytes
emitted so far (`out`, whose length is the source's `pos`); every write
the source performs lands immediately after the previous ones, so the
final `buffer[..pos]` equals the emitted list.  Crash cases mirror the
source's panics: slicing `buffer[pos + 4..]` with `pos + 4 > 8192`, and
a `copy_from_slice` of a blob whose `usize` length differs from its
truncated `u32` length.  `kEnc` models `postcard::to_slice` of a key:
`none` is a serialization failure, and a result longer than the
remaining buffer is the crate's buffer-full serialization error. -/
def stageEntries (kEnc : K → Option (List Nat)) :
    List (K × List Nat) → List Nat → Outcome (List Nat)
  | [], out => .ok out
  | (k, blob) :: rest, out =>
    let pos := out.length
    if pos + 4 > MAX_SERIALIZED_SIZE then .crash
    else
      match kEnc k with
      | none => .err .SerializationError
      | some kb =>
        if kb.length > MAX_SERIALIZED_SIZE - (pos + 4) then .err .SerializationError
        else
          let out1 := out ++ le4 kb.length ++ kb
          let vl := blob.length % 4294967296
          if out1.length + 4 + vl > MAX_SERIALIZED_SIZE then .err .BufferTooSmall
          else if vl ≠ blob.length then .crash
          else stageEntries kEnc rest (out1 ++ le4 vl ++ blob)

/-- Staging phase of `save_to_flash`: the header
`buffer[pos..pos + flash_size].copy_from_slice(&num_entries.to_le_bytes())`
panics unless `flash_size = 4` (`copy_from_slice` demands equal slice
lengths); then the entries are staged after the 4-byte count. -/
def stageImage (kEnc : K → Option (List Nat)) (es : List (K × List Nat))
    (flash_size : Nat) : Outcome (List Nat) :=
  if flash_size ≠ 4 then .crash
  else stageEntries kEnc es (le4 (es.length % 4294967296))

/-- `(pos + 3) & !3`: round up to a word multiple. -/
def alignUp4 (pos : Nat) : Nat := ((pos + 3) / 4) * 4

/-- Flash contents after a successful save of staged bytes `out` at
`off`: the covering pages erased, then `buffer[..aligned_size]` (the
staged bytes plus the zero bytes of the freshly initialised staging
array) written. -/
def savedFlash (mem : Nat → Nat) (off : Nat) (out : List Nat) : Nat → Nat :=
  let aligned := alignUp4 out.length
  let pages := (aligned + PAGE_SIZE - 1) / PAGE_SIZE
  writeImg (eraseRange mem off (off + pages * PAGE_SIZE)) off
    (out ++ List.replicate (aligned - out.length) 0)

/-- src/db.rs `Database::save_to_flash`, instantiated with the
repository's own `FlashStorage` driver: stage the image, erase the
covering pages (`EraseError` when the driver rejects the bounds), write
the aligned prefix of the staging buffer (`WriteError` when the driver
rejects the offset). -/
def save_to_flash [DecidableEq K] (kEnc : K → Option (List Nat))
    (db : Database K V N B CACH) (mem : Nat → Nat) (flash_size : Nat)
    (flash_offset : Nat) : Outcome (Nat → Nat) :=
  match stageImage kEnc db.blobs.map flash_size with
  | .crash => .crash
  | .err e => .err e
  | .ok out =>
    let aligned := alignUp4 out.length
    let pages := (aligned + PAGE_SIZE - 1) / PAGE_SIZE
    let eend := flash_offset + pages * PAGE_SIZE
    match FlashStorage.erase mem flash_offset eend with
    | .error _ => .err .EraseError
    | .ok mem1 =>
      match FlashStorage.write mem1 flash_offset
          (out ++ List.replicate (aligned - out.length) 0) with
      | .error _ => .err .WriteError
      | .ok mem2 => .ok mem2

/-- The record-parsing loop of `load_from_flash` (src/db.rs lines
206–252), structurally recursive on the number of entries still to
read.  Every buffer access is bounds-checked against
`MAX_READ_SIZE = 8192` before it happens (hence no crash case);
`kDec` models `postcard::from_bytes` for a key; a value longer than `B`
makes `Vec::extend_from_slice` fail with `BufferTooSmall`; a full store
turns the `KvStore::put` error into `DatabaseFull`. -/
def loadLoop [DecidableEq K] (kDec : List Nat → Option K) (B : Nat)
    (buf : List Nat) :
    Nat → Nat → KvStore K (List Nat) N → Outcome (KvStore K (List Nat) N × Nat)
  | 0, pos, s => .ok (s, pos)
  | n + 1, pos, s =>
    if pos + 4 > MAX_SERIALIZED_SIZE then .err .BufferTooSmall
    else
      let key_len := readLe4 buf pos
      let pos1 := pos + 4
      if pos1 + key_len > MAX_SERIALIZED_SIZE then .err .BufferTooSmall
      else
        match kDec (listSlice buf pos1 key_len) with
        | none => .err .DeserializationError
        | some k =>
          let pos2 := pos1 + key_len
          if pos2 + 4 > MAX_SERIALIZED_SIZE then .err .BufferTooSmall
          else
            let val_len := readLe4 buf pos2
            let pos3 := pos2 + 4
            if pos3 + val_len > MAX_SERIALIZED_SIZE then .err .BufferTooSmall
            else if val_len > B then .err .BufferTooSmall
            else
              match s.put k (listSlice buf pos3 val_len) with
              | .error _ => .err .DatabaseFull
              | .ok (_, s') => loadLoop kDec B buf n (pos3 + val_len) s'

/-- src/db.rs `Database::load_from_flash`, with the repository's
`FlashStorage` as the flash device (its `read` never fails): read an
8192-byte window, return unchanged on the erased sentinel header,
otherwise clear both structures and parse exactly `num_entries`
records.  `loadFinish` packages the parse result (src/db.rs line 254):
a successful parse yields the parsed store with a cleared cache. -/
def loadFinish : Outcome (KvStore K (List Nat) N × Nat) →
    Outcome (Database K V N B CACH)
  | .err e => .err e
  | .crash => .crash
  | .ok (s, _) => .ok ⟨s, []⟩

def load_from_flash [DecidableEq K] (kDec : List Nat → Option K)
    (db : Database K V N B CACH) (mem : Nat → Nat) (flash_offset : Nat) :
    Outcome (Database K V N B CACH) :=
  let buf := readBytesF mem flash_offset MAX_SERIALIZED_SIZE
  let num_entries := readLe4 buf 0
  if num_entries = 4294967295 then .ok db
  else loadFinish (loadLoop (N := N) kDec B buf num_entries 4 ⟨[]⟩)

/-! ### Derived notions used by the statements -/

/-- The flat on-flash record list for `es`: for each entry,
`key_len (4 bytes LE) ++ key bytes ++ val_len (4 bytes LE) ++ blob`,
i.e. the image layout of §6 of the spec, minus the header. -/
def encListF (kEnc : K → Option (List Nat)) : List (K × List Nat) → Option (List Nat)
  | [] => some []
  | (k, b) :: t =>
    match kEnc k, encListF kEnc t with
    | some kb, some rest => some (le4 kb.length ++ kb ++ le4 b.length ++ b ++ rest)
    | _, _ => none

/-- Well-formedness of the blob store, maintained by construction in the
Rust source: keys are distinct (it is a map), at most `N` entries, every
blob fits its `Vec<u8, B>`. -/
def StoreWF {K : Type} (N B : Nat) (es : List (K × List Nat)) : Prop :=
  (es.map Prod.fst).Nodup ∧ es.length ≤ N ∧ ∀ p ∈ es, p.2.length ≤ B

instance {K : Type} [DecidableEq K] (N B : Nat) (es : List (K × List Nat)) :
    Decidable (StoreWF N B es) := by
  unfold StoreWF; infer_instance

/-- Cache coherence: cache keys are distinct and every cached pair is
the decoding of the blob currently stored under its key. -/
def CacheOK [DecidableEq K] (vDec : List Nat → Option V)
    (db : Database K V N B CACH) : Prop :=
  (db.cache.map Prod.fst).Nodup ∧
    ∀ p ∈ db.cache, ∃ bs, db.blobs.get p.1 = some bs ∧ vDec bs = some p.2

/-- The weaker containment invariant of C8: cache keys are distinct and
every cached key is present in the `KvStore`. -/
def CacheSub [DecidableEq K] (db : Database K V N B CACH) : Prop :=
  (db.cache.map Prod.fst).Nodup ∧ ∀ p ∈ db.cache, (db.blobs.get p.1).isSome

instance [DecidableEq K] [DecidableEq V] (db : Database K V N B CACH) :
    Decidable (CacheSub db) := by
  unfold CacheSub; infer_instance

/-- States reachable from a freshly constructed `Database` by any
sequence of `put` / `get` / `delete` calls (a failing `put` or `get`
leaves the receiver unchanged in the source, hence no extra cases). -/
inductive Reach [DecidableEq K] (vEnc : Nat → V → Option (List Nat))
    (vDec : List Nat → Option V) : Database K V N B CACH → Prop
  | init : Reach vEnc vDec Database.new
  | put (db : Database K V N B CACH) (k : K) (v : V)
      (db' : Database K V N B CACH) :
      Reach vEnc vDec db → db.put vEnc k v = some db' → Reach vEnc vDec db'
  | get (db : Database K V N B CACH) (k : K) (r : Option V)
      (db' : Database K V N B CACH) :
      Reach vEnc vDec db → db.get vDec k = some (r, db') → Reach vEnc vDec db'
  | delete (db : Database K V N B CACH) (k : K) :
      Reach vEnc vDec db → Reach vEnc vDec (db.delete k).2

/-! ### Concrete fixtures for the witnesses -/

/-- A one-byte key codec standing in for `postcard` on small keys. -/
def byteKeyEnc : Nat → Option (List Nat) :=
  fun k => if k < 256 then some [k] else none

def byteKeyDec : List Nat → Option Nat :=
  fun bs => match bs with | [b] => some b | _ => none

/-- A one-byte value codec (for a buffer of any positive size). -/
def byteValEnc : Nat → Nat → Option (List Nat) :=
  fun _ v => if v < 256 then some [v] else none

def byteValDec : List Nat → Option Nat :=
  fun bs => match bs with | [b] => some b | _ => none

/-- A concrete three-entry store `{1 ↦ [100], 2 ↦ [200], 3 ↦ [44]}`. -/
def dbW : Database Nat Nat 16 256 4 := ⟨⟨[(1, [100]), (2, [200]), (3, [44])]⟩, []⟩

/-- The staged image of `dbW` under `byteKeyEnc`. -/
def imgBytesW : List Nat :=
  [3, 0, 0, 0,
   1, 0, 0, 0, 1, 1, 0, 0, 0, 100,
   1, 0, 0, 0, 2, 1, 0, 0, 0, 200,
   1, 0, 0, 0, 3, 1, 0, 0, 0, 44]

/-! ## Byte-buffer lemmas -/

theorem getD_append_left {l l' : List Nat} {i : Nat} (h : i < l.length) :
    (l ++ l').getD i 0 = l.getD i 0 := by
  induction l generalizing i with
  | nil => simp at h
  | cons a t ih =>
    cases i with
    | zero => rfl
    | succ j => simpa using ih (by simpa using h)

theorem getD_append_right (l l' : List Nat) (i : Nat) :
    (l ++ l').getD (l.length + i) 0 = l'.getD i 0 := by
  induction l with
  | nil => simp
  | cons a t ih => simpa [Nat.succ_add] using ih

theorem getD_drop (l : List Nat) (s i : Nat) :
    (l.drop s).getD i 0 = l.getD (s + i) 0 := by
  induction l generalizing s with
  | nil => simp
  | cons a t ih =>
    cases s with
    | zero => simp
    | succ s' => simp [Nat.succ_add, ih s']

theorem getD_take {l : List Nat} {n i : Nat} (h : i < n) :
    (l.take n).getD i 0 = l.getD i 0 := by
  induction l generalizing n i with
  | nil => simp
  | cons a t ih =>
    cases n with
    | zero => omega
    | succ m =>
      cases i with
      | zero => rfl
      | succ j => simpa using ih (by omega)

theorem listSlice_getD {l : List Nat} {s len i : Nat} (h : i < len) :
    (listSlice l s len).getD i 0 = l.getD (s + i) 0 := by
  unfold listSlice
  rw [getD_take h, getD_drop]

theorem listSlice_length {l : List Nat} {s len : Nat} (h : s + len ≤ l.length) :
    (listSlice l s len).length = len := by
  unfold listSlice
  simp only [List.length_take, List.length_drop]
  omega

theorem eq_of_getD {l l' : List Nat} (hl : l.length = l'.length)
    (h : ∀ i, i < l.length → l.getD i 0 = l'.getD i 0) : l = l' := by
  induction l generalizing l' with
  | nil => cases l' with
    | nil => rfl
    | cons b t' => simp at hl
  | cons a t ih =>
    cases l' with
    | nil => simp at hl
    | cons b t' =>
      have h0 : a = b := by simpa using h 0 (by simp)
      have ht : t = t' := by
        apply ih (by simpa using hl)
        intro i hi
        simpa using h (i + 1) (by simp; omega)
      rw [h0, ht]

theorem listSlice_eq {buf : List Nat} {pos : Nat} (enc : List Nat)
    (hle : pos + enc.length ≤ buf.length)
    (h : ∀ i, i < enc.length → buf.getD (pos + i) 0 = enc.getD i 0) :
    listSlice buf pos enc.length = enc := by
  apply eq_of_getD
  · rw [listSlice_length hle]
  · intro i hi
    rw [listSlice_length hle] at hi
    rw [listSlice_getD hi, h i hi]

theorem readBytesF_length (mem : Nat → Nat) (off len : Nat) :
    (readBytesF mem off len).length = len := by
  simp [readBytesF]

theorem readBytesF_getD {mem : Nat → Nat} {off len i : Nat} (h : i < len) :
    (readBytesF mem off len).getD i 0 = mem (off + i) := by
  unfold readBytesF
  rw [List.getD_eq_getElem _ 0 (by simpa using h)]
  simp

theorem le4_length (n : Nat) : (le4 n).length = 4 := rfl

theorem decLe4_le4 (n : Nat) :
    decLe4 (n % 256) (n / 256 % 256) (n / 65536 % 256) (n / 16777216 % 256) =
      n % 4294967296 := by
  unfold decLe4; omega

/-- Reading back four staged little-endian bytes recovers `n mod 2^32`. -/
theorem readLe4_of_getD {buf : List Nat} {pos n : Nat}
    (h : ∀ i, i < 4 → buf.getD (pos + i) 0 = (le4 n).getD i 0) :
    readLe4 buf pos = n % 4294967296 := by
  have h0 : buf.getD pos 0 = n % 256 := by simpa [le4] using h 0 (by omega)
  have h1 : buf.getD (pos + 1) 0 = n / 256 % 256 := by simpa [le4] using h 1 (by omega)
  have h2 : buf.getD (pos + 2) 0 = n / 65536 % 256 := by simpa [le4] using h 2 (by omega)
  have h3 : buf.getD (pos + 3) 0 = n / 16777216 % 256 := by simpa [le4] using h 3 (by omega)
  unfold readLe4
  rw [h0, h1, h2, h3, decLe4_le4]

/-! ## Association-list lemmas -/

section AssocLemmas

variable [DecidableEq K]

theorem assocGet_eq_none_iff (m : List (K × V)) (k : K) :
    assocGet m k = none ↔ k ∉ m.map Prod.fst := by
  induction m with
  | nil => simp [assocGet]
  | cons p t ih =>
    obtain ⟨a, b⟩ := p
    by_cases hak : a = k
    · subst hak; simp [assocGet]
    · simp only [assocGet, if_neg hak, List.map_cons, List.mem_cons]
      rw [ih]
      have hka : ¬k = a := fun h => hak h.symm
      tauto

theorem assocGet_mem {m : List (K × V)} {k : K} {v : V}
    (h : assocGet m k = some v) : (k, v) ∈ m := by
  induction m with
  | nil => simp [assocGet] at h
  | cons p t ih =>
    obtain ⟨a, b⟩ := p
    by_cases hak : a = k
    · subst hak
      simp [assocGet] at h
      simp [h]
    · simp [assocGet, hak] at h
      exact List.mem_cons_of_mem _ (ih h)

theorem assocGet_of_mem_nodup {m : List (K × V)} {k : K} {v : V}
    (hd : (m.map Prod.fst).Nodup) (h : (k, v) ∈ m) : assocGet m k = some v := by
  induction m with
  | nil => simp at h
  | cons p t ih =>
    obtain ⟨a, b⟩ := p
    simp only [List.map_cons, List.nodup_cons] at hd
    rcases List.mem_cons.mp h with heq | hmem
    · cases heq
      simp [assocGet]
    · have hak : a ≠ k := by
        intro hk
        subst hk
        exact hd.1 (List.mem_map.mpr ⟨(a, v), hmem, rfl⟩)
      simp [assocGet, hak, ih hd.2 hmem]

theorem assocGet_append_of_some {m : List (K × V)} {k : K} {w : V}
    (l : List (K × V)) (h : assocGet m k = some w) :
    assocGet (m ++ l) k = some w := by
  induction m with
  | nil => simp [assocGet] at h
  | cons p t ih =>
    obtain ⟨a, b⟩ := p
    by_cases hak : a = k <;> simp_all [assocGet]

theorem assocGet_append_of_none {m : List (K × V)} {k : K}
    (l : List (K × V)) (h : assocGet m k = none) :
    assocGet (m ++ l) k = assocGet l k := by
  induction m with
  | nil => simp
  | cons p t ih =>
    obtain ⟨a, b⟩ := p
    by_cases hak : a = k <;> simp_all [assocGet]

theorem assocReplace_keys (m : List (K × V)) (k : K) (v : V) :
    (assocReplace m k v).map Prod.fst = m.map Prod.fst := by
  induction m with
  | nil => rfl
  | cons p t ih =>
    obtain ⟨a, b⟩ := p
    by_cases hak : a = k <;> simp [assocReplace, hak, ih]

theorem assocReplace_length (m : List (K × V)) (k : K) (v : V) :
    (assocReplace m k v).length = m.length := by
  have := congrArg List.length (assocReplace_keys m k v)
  simpa using this

theorem assocGet_replace_self {m : List (K × V)} {k : K} {w : V} (v : V)
    (h : assocGet m k = some w) :
    assocGet (assocReplace m k v) k = some v := by
  induction m with
  | nil => simp [assocGet] at h
  | cons p t ih =>
    obtain ⟨a, b⟩ := p
    by_cases hak : a = k <;> simp_all [assocGet, assocReplace]

theorem assocGet_replace_ne (m : List (K × V)) {k q : K} (v : V) (h : q ≠ k) :
    assocGet (assocReplace m k v) q = assocGet m q := by
  induction m with
  | nil => rfl
  | cons p t ih =>
    obtain ⟨a, b⟩ := p
    by_cases hak : a = k
    · subst hak
      have haq : ¬a = q := fun hh => h hh.symm
      simp [assocReplace, assocGet, haq]
    · by_cases haq : a = q
      · subst haq
        simp [assocReplace, assocGet, hak]
      · simp [assocReplace, assocGet, hak, haq, ih]

theorem assocReplace_mem {m : List (K × V)} {k : K} {v : V} {p : K × V}
    (h : p ∈ assocReplace m k v) : p ∈ m ∨ p = (k, v) := by
  induction m with
  | nil => simp [assocReplace] at h
  | cons q t ih =>
    obtain ⟨a, b⟩ := q
    by_cases hak : a = k
    · subst hak
      simp only [assocReplace, if_pos rfl] at h
      rcases List.mem_cons.mp h with heq | hmem
      · exact Or.inr heq
      · exact Or.inl (List.mem_cons_of_mem _ hmem)
    · simp only [assocReplace, if_neg hak] at h
      rcases List.mem_cons.mp h with heq | hmem
      · exact Or.inl (heq ▸ List.mem_cons_self _ _)
      · rcases ih hmem with hm | hp
        · exact Or.inl (List.mem_cons_of_mem _ hm)
        · exact Or.inr hp

theorem assocErase_keys_sublist (m : List (K × V)) (k : K) :
    List.Sublist ((assocErase m k).map Prod.fst) (m.map Prod.fst) := by
  induction m with
  | nil => simp [assocErase]
  | cons p t ih =>
    obtain ⟨a, b⟩ := p
    by_cases hak : a = k
    · simp only [assocErase, if_pos hak, List.map_cons]
      exact List.sublist_cons_of_sublist a (List.Sublist.refl _)
    · simpa [assocErase, hak] using ih

theorem assocErase_sublist (m : List (K × V)) (k : K) :
    List.Sublist (assocErase m k) m := by
  induction m with
  | nil => simp [assocErase]
  | cons p t ih =>
    obtain ⟨a, b⟩ := p
    by_cases hak : a = k
    · simp only [assocErase, if_pos hak]
      exact List.sublist_cons_of_sublist _ (List.Sublist.refl _)
    · simpa [assocErase, hak] using ih

theorem assocGet_erase_ne (m : List (K × V)) {k q : K} (h : q ≠ k) :
    assocGet (assocErase m k) q = assocGet m q := by
  induction m with
  | nil => rfl
  | cons p t ih =>
    obtain ⟨a, b⟩ := p
    by_cases hak : a = k
    · subst hak
      have haq : ¬a = q := fun hh => h hh.symm
      simp [assocErase, assocGet, haq]
    · by_cases haq : a = q
      · subst haq
        simp [assocErase, assocGet, hak]
      · simp [assocErase, assocGet, hak, haq, ih]

theorem assocGet_erase_self {m : List (K × V)} {k : K}
    (hd : (m.map Prod.fst).Nodup) :
    assocGet (assocErase m k) k = none := by
  induction m with
  | nil => rfl
  | cons p t ih =>
    obtain ⟨a, b⟩ := p
    simp only [List.map_cons, List.nodup_cons] at hd
    by_cases hak : a = k
    · subst hak
      simp only [assocErase, if_pos rfl]
      rw [assocGet_eq_none_iff]
      exact hd.1
    · simp [assocErase, assocGet, hak, ih hd.2]

end AssocLemmas

/-! ## `KvStore.put` characterisation -/

section KvPut

variable [DecidableEq K] {N : Nat}

theorem KvStore.put_error_iff (s : KvStore K V N) (k : K) (v : V) :
    (∃ p, s.put k v = .error p) ↔ (s.map.length = N ∧ assocGet s.map k = none) := by
  unfold KvStore.put
  split
  · next h =>
    simp only [Option.isNone_iff_eq_none] at h
    exact ⟨fun _ => h, fun _ => ⟨(k, v), rfl⟩⟩
  · next h =>
    simp only [Option.isNone_iff_eq_none] at h
    constructor
    · rintro ⟨p, hp⟩
      split at hp <;> simp at hp
    · intro hc
      exact absurd hc h

theorem KvStore.put_error_pair {s : KvStore K V N} {k : K} {v : V} {p : K × V}
    (h : s.put k v = .error p) : p = (k, v) := by
  unfold KvStore.put at h
  split at h
  · exact (Except.error.inj h).symm
  · split at h <;> simp at h

theorem KvStore.put_present {s : KvStore K V N} {k : K} {w : V} (v : V)
    (h : assocGet s.map k = some w) :
    s.put k v = .ok (some w, ⟨assocReplace s.map k v⟩) := by
  unfold KvStore.put
  rw [if_neg (by simp [h]), h]

theorem KvStore.put_absent {s : KvStore K V N} {k : K} (v : V)
    (h : assocGet s.map k = none) (hlen : s.map.length ≠ N) :
    s.put k v = .ok (none, ⟨s.map ++ [(k, v)]⟩) := by
  unfold KvStore.put
  rw [if_neg (by simp [h, hlen]), h]

end KvPut

/-- `loadFinish` only ever produces stores with an empty cache. -/
theorem loadFinish_cache {K V : Type} {N B CACH : Nat}
    (r : Outcome (KvStore K (List Nat) N × Nat)) {db' : Database K V N B CACH}
    (h : loadFinish r = .ok db') : db'.cache = [] := by
  cases r with
  | ok p => obtain ⟨s, pos⟩ := p; injection h with h; rw [← h]
  | err e => exact absurd h (by simp [loadFinish])
  | crash => exact absurd h (by simp [loadFinish])

/-- `loadFinish` on a successful parse. -/
theorem loadFinish_ok {K V : Type} {N B CACH : Nat}
    (s : KvStore K (List Nat) N) (pos : Nat) :
    (loadFinish (.ok (s, pos)) : Outcome (Database K V N B CACH)) = .ok ⟨s, []⟩ := rfl

/-! ## Staging lemmas -/

/-- Successful staging appends exactly the flat record encoding
`encListF` to the bytes already emitted, stays within the 8192-byte
buffer, emits at least 8 bytes per entry, and certifies per-entry
bounds (key encoding exists and fits, blob length is a valid `u32`). -/
theorem stageEntries_ok_spec {K : Type} (kEnc : K → Option (List Nat)) :
    ∀ (es : List (K × List Nat)) (out out' : List Nat),
      out.length ≤ MAX_SERIALIZED_SIZE →
      stageEntries kEnc es out = .ok out' →
      ∃ enc, encListF kEnc es = some enc ∧ out' = out ++ enc ∧
        out'.length ≤ MAX_SERIALIZED_SIZE ∧
        out.length + 8 * es.length ≤ out'.length ∧
        ∀ p ∈ es, ∃ kb, kEnc p.1 = some kb ∧
          kb.length + 8 ≤ MAX_SERIALIZED_SIZE ∧ p.2.length < 4294967296 := by
  intro es
  induction es with
  | nil =>
    intro out out' hout h
    simp only [stageEntries] at h
    injection h with h
    subst h
    exact ⟨[], rfl, by simp, hout, by simp, by simp⟩
  | cons p rest ih =>
    obtain ⟨k, blob⟩ := p
    intro out out' hout h
    simp only [stageEntries] at h
    split at h
    · exact absurd h (by simp)
    next h4 =>
    cases hkk : kEnc k with
    | none => rw [hkk] at h; simp only [] at h; exact absurd h (by simp)
    | some kb =>
    rw [hkk] at h
    simp only [] at h
    split at h
    · exact absurd h (by simp)
    next hkb =>
    split at h
    · exact absurd h (by simp)
    next hv1 =>
    split at h
    · exact absurd h (by simp)
    next hv2 =>
    have hvl : blob.length % 4294967296 = blob.length := by
      by_contra hcon
      exact hv2 hcon
    rw [hvl] at h hv1
    have hlen1 :
        ((out ++ le4 kb.length ++ kb) ++ le4 blob.length ++ blob).length
          ≤ MAX_SERIALIZED_SIZE := by
      simp only [List.length_append, le4_length]
      simp only [List.length_append, le4_length] at hv1
      omega
    obtain ⟨encR, hencR, hout', hle, hmin, hents⟩ :=
      ih ((out ++ le4 kb.length ++ kb) ++ le4 blob.length ++ blob) out' hlen1 h
    refine ⟨le4 kb.length ++ kb ++ le4 blob.length ++ blob ++ encR, ?_, ?_, hle, ?_, ?_⟩
    · simp only [encListF, hkk, hencR]
    · rw [hout']
      simp [List.append_assoc]
    · simp only [List.length_append, List.length_cons, le4_length] at hmin ⊢
      omega
    · intro q hq
      rcases List.mem_cons.mp hq with hq1 | hq2
      · subst hq1
        refine ⟨kb, hkk, ?_, ?_⟩
        · simp only [List.length_append, le4_length] at hv1
          omega
        · show blob.length < 4294967296
          omega
      · exact hents q hq2

/-! ## Claim theorems -/

/-- C3: `KvStore::put(k, v)` fails if and only if the store is full and
`k` is absent; the failure returns exactly the rejected pair `(k, v)` to
the caller (the receiver is passed by `&mut` and the error path returns
before any mutation, which the functional model renders by producing no
successor store on error); when `k` is already present, `put` succeeds —
even at full capacity — returning the previous value, leaving `len`
unchanged and every other entry intact. -/
theorem claim_C3_kvstore_put {K V : Type} [DecidableEq K] {N : Nat}
    (s : KvStore K V N) (k : K) (v : V) :
    ((∃ p, s.put k v = .error p) ↔ (s.map.length = N ∧ s.get k = none))
    ∧ (∀ p, s.put k v = .error p → p = (k, v))
    ∧ (∀ w, s.get k = some w →
        ∃ s', s.put k v = .ok (some w, s')
          ∧ s'.map.length = s.map.length
          ∧ s'.get k = some v
          ∧ ∀ q, q ≠ k → s'.get q = s.get q) := by
  refine ⟨KvStore.put_error_iff s k v, fun p hp => KvStore.put_error_pair hp, ?_⟩
  intro w hw
  refine ⟨⟨assocReplace s.map k v⟩, KvStore.put_present v hw, ?_, ?_, ?_⟩
  · exact assocReplace_length s.map k v
  · exact assocGet_replace_self v hw
  · intro q hq
    exact assocGet_replace_ne s.map v hq

/-- Witness for C3 at a concrete full store: `{1 ↦ 10, 2 ↦ 20}` with
capacity 2 rejects the absent key 3, and overwrites key 1 in place. -/
theorem claim_C3_kvstore_put_witness :
    ((⟨[(1, 10), (2, 20)]⟩ : KvStore Nat Nat 2).map.length = 2
        ∧ (⟨[(1, 10), (2, 20)]⟩ : KvStore Nat Nat 2).get 3 = none)
    ∧ (∃ p, (⟨[(1, 10), (2, 20)]⟩ : KvStore Nat Nat 2).put 3 30 = .error p)
    ∧ (∃ s', (⟨[(1, 10), (2, 20)]⟩ : KvStore Nat Nat 2).put 1 11 = .ok (some 10, s')
        ∧ s'.map.length = 2 ∧ s'.get 1 = some 11) := by
  refine ⟨⟨by decide, by decide⟩, ?_, ?_⟩
  · exact (claim_C3_kvstore_put (⟨[(1, 10), (2, 20)]⟩ : KvStore Nat Nat 2) 3 30).1.mpr
      ⟨by decide, by decide⟩
  · obtain ⟨s', h1, h2, h3, -⟩ :=
      (claim_C3_kvstore_put (⟨[(1, 10), (2, 20)]⟩ : KvStore Nat Nat 2) 1 11).2.2 10 (by decide)
    exact ⟨s', h1, by simpa using h2, h3⟩

/-- C9: `Database::put` fails exactly on a codec-encode failure, an
encoded blob longer than `B`, or a full store lacking the key; in the
source every one of these failure returns happens before the first
mutating statement, which the functional model renders by the error
branch producing no successor state — the `KvStore` and the cache of
the receiver are exactly as before the call. -/
theorem claim_C9_database_put_failure {K V : Type} [DecidableEq K] {N B CACH : Nat}
    (vEnc : Nat → V → Option (List Nat)) (db : Database K V N B CACH) (k : K) (v : V) :
    db.put vEnc k v = none ↔
      (vEnc B v = none ∨
        ∃ bs, vEnc B v = some bs ∧
          (B < bs.length ∨ (db.blobs.map.length = N ∧ db.blobs.get k = none))) := by
  unfold Database.put
  cases hv : vEnc B v with
  | none => simp
  | some bs =>
    simp only [Option.some.injEq, reduceCtorEq, false_or]
    by_cases hb : bs.length > B
    · simp only [if_pos hb]
      exact ⟨fun _ => ⟨bs, rfl, Or.inl hb⟩, fun _ => trivial⟩
    · simp only [if_neg hb]
      cases hp : db.blobs.put k bs with
      | error p =>
        have := (KvStore.put_error_iff db.blobs k bs).mp ⟨p, hp⟩
        simp only [KvStore.get]
        exact ⟨fun _ => ⟨bs, rfl, Or.inr this⟩, fun _ => trivial⟩
      | ok r =>
        constructor
        · intro h
          simp at h
        · rintro ⟨bs', hbs', hor⟩
          cases hbs'
          rcases hor with hlen | hfull
          · omega
          · have := (KvStore.put_error_iff db.blobs k bs).mpr hfull
            obtain ⟨p, hp'⟩ := this
            rw [hp'] at hp
            cases hp

/-- Witness for C9: a full one-slot store rejects a put of a fresh key,
and an over-long encoding is rejected. -/
theorem claim_C9_database_put_failure_witness :
    ((⟨⟨[(1, [10])]⟩, []⟩ : Database Nat Nat 1 4 2).put
        (fun _ v => some [v]) 2 20 = none)
    ∧ ((Database.new : Database Nat Nat 4 0 2).put
        (fun _ v => some [v]) 1 10 = none) := by
  constructor
  · exact (claim_C9_database_put_failure (fun _ v => some [v])
      (⟨⟨[(1, [10])]⟩, []⟩ : Database Nat Nat 1 4 2) 2 20).mpr
      (Or.inr ⟨[20], rfl, Or.inr ⟨by decide, by decide⟩⟩)
  · exact (claim_C9_database_put_failure (fun _ v => some [v])
      (Database.new : Database Nat Nat 4 0 2) 1 10).mpr
      (Or.inr ⟨[10], rfl, Or.inl (by decide)⟩)

/-- C6: a `load_from_flash` whose 4-byte header window reads the erased
sentinel `0xFFFFFFFF` returns `Ok` and leaves the whole store — blob
index and cache alike — untouched. -/
theorem claim_C6_load_erased_sentinel {K V : Type} [DecidableEq K] {N B CACH : Nat}
    (kDec : List Nat → Option K) (db : Database K V N B CACH)
    (mem : Nat → Nat) (off : Nat)
    (h : readLe4 (readBytesF mem off MAX_SERIALIZED_SIZE) 0 = 4294967295) :
    load_from_flash kDec db mem off = .ok db := by
  simp only [load_from_flash]
  rw [h]
  simp

/-- Witness for C6 on fully erased flash (`0xFF` everywhere). -/
theorem claim_C6_load_erased_sentinel_witness :
    load_from_flash (fun _ => none)
      (⟨⟨[(7, [1, 2])]⟩, [(7, 5)]⟩ : Database Nat Nat 4 8 2)
      (fun _ => 255) 0 = .ok ⟨⟨[(7, [1, 2])]⟩, [(7, 5)]⟩ := by
  apply claim_C6_load_erased_sentinel
  unfold readLe4
  rw [readBytesF_getD (by decide), readBytesF_getD (by decide),
    readBytesF_getD (by decide), readBytesF_getD (by decide)]
  decide

/-- C10: a successful `load_from_flash` whose header is not the erased
sentinel leaves the hot cache empty — the load clears the cache and
repopulates only the blob index, so the next `get` of any loaded key is
a cache miss that decodes its blob. -/
theorem claim_C10_load_clears_cache {K V : Type} [DecidableEq K] {N B CACH : Nat}
    (kDec : List Nat → Option K) (db db' : Database K V N B CACH)
    (mem : Nat → Nat) (off : Nat)
    (hs : readLe4 (readBytesF mem off MAX_SERIALIZED_SIZE) 0 ≠ 4294967295)
    (h : load_from_flash kDec db mem off = .ok db') :
    db'.cache = [] := by
  simp only [load_from_flash] at h
  rw [if_neg hs] at h
  exact loadFinish_cache _ h

/-- Witness for C10: zeroed flash holds a valid empty image (header 0),
whose load succeeds with an empty cache. -/
theorem claim_C10_load_clears_cache_witness :
    ∃ db' : Database Nat Nat 4 8 2,
      load_from_flash (fun _ => none)
        (⟨⟨[(7, [1, 2])]⟩, [(7, 5)]⟩ : Database Nat Nat 4 8 2) (fun _ => 0) 0 = .ok db'
      ∧ db'.cache = [] := by
  have hn : readLe4 (readBytesF (fun _ => 0) 0 MAX_SERIALIZED_SIZE) 0 = 0 := by
    unfold readLe4
    rw [readBytesF_getD (by decide), readBytesF_getD (by decide),
      readBytesF_getD (by decide), readBytesF_getD (by decide)]
    decide
  have h : load_from_flash (fun _ => none)
      (⟨⟨[(7, [1, 2])]⟩, [(7, 5)]⟩ : Database Nat Nat 4 8 2) (fun _ => 0) 0 =
        .ok ⟨⟨[]⟩, []⟩ := by
    simp only [load_from_flash]
    rw [hn]
    simp [loadLoop, loadFinish]
  exact ⟨_, h, claim_C10_load_clears_cache (fun _ => none) _ _ (fun _ => 0) 0
    (by rw [hn]; decide) h⟩

/-- The one-byte key codec is a round trip. -/
theorem byteKey_rt : ∀ k bs, byteKeyEnc k = some bs → byteKeyDec bs = some k := by
  intro k bs h
  unfold byteKeyEnc at h
  split at h
  · injection h with h
    rw [← h]
    rfl
  · exact absurd h (by simp)

/-- The one-byte value codec is a round trip (any buffer size). -/
theorem byteVal_rt (B : Nat) : ∀ v bs, byteValEnc B v = some bs → byteValDec bs = some v := by
  intro v bs h
  unfold byteValEnc at h
  split at h
  · injection h with h
    rw [← h]
    rfl
  · exact absurd h (by simp)

/-- C2: with the 4-byte header size the repository actually passes for
`flash_size` (any other value panics — see C4), a save whose staging
succeeds lays the image out as the entry count in 4 little-endian bytes
at offset 0 of the image, the first record starting immediately at
offset 4 (`encListF` is the record list of §6), and the staged header is
never the reserved erased sentinel `0xFFFFFFFF`. -/
theorem claim_C2_save_header {K V : Type} [DecidableEq K] {N B CACH : Nat}
    (kEnc : K → Option (List Nat)) (db : Database K V N B CACH) (out : List Nat)
    (h : stageImage kEnc db.blobs.map 4 = .ok out) :
    out.take 4 = le4 db.len
    ∧ (∃ enc, encListF kEnc db.blobs.map = some enc ∧ out = le4 db.len ++ enc)
    ∧ out.take 4 ≠ [255, 255, 255, 255] := by
  unfold stageImage at h
  rw [if_neg (by decide)] at h
  obtain ⟨enc, henc, hout, hle, hmin, -⟩ :=
    stageEntries_ok_spec kEnc db.blobs.map _ out
      (by rw [le4_length]; decide) h
  have hsmall : db.blobs.map.length ≤ 1023 := by
    rw [hout] at hle hmin
    simp only [List.length_append, le4_length] at hle hmin
    have : MAX_SERIALIZED_SIZE = 8192 := rfl
    omega
  have hmod : db.blobs.map.length % 4294967296 = db.blobs.map.length :=
    Nat.mod_eq_of_lt (by omega)
  rw [hmod] at hout
  have hlen : db.len = db.blobs.map.length := rfl
  have htake : out.take 4 = le4 db.blobs.map.length := by
    rw [hout, ← le4_length db.blobs.map.length]
    exact List.take_left _ _
  refine ⟨?_, ⟨enc, henc, ?_⟩, ?_⟩
  · rw [htake, hlen]
  · rw [hout, hlen]
  · rw [htake]
    intro heq
    simp only [le4, List.cons.injEq, and_true] at heq
    omega

set_option maxRecDepth 40000 in
/-- Witness for C2 at the concrete store `dbW`. -/
theorem claim_C2_save_header_witness :
    stageImage byteKeyEnc dbW.blobs.map 4 = .ok imgBytesW
    ∧ imgBytesW.take 4 = le4 dbW.len
    ∧ imgBytesW.take 4 ≠ [255, 255, 255, 255] := by
  have hst : stageImage byteKeyEnc dbW.blobs.map 4 = .ok imgBytesW := by decide
  obtain ⟨h1, -, h3⟩ := claim_C2_save_header byteKeyEnc dbW imgBytesW hst
  exact ⟨hst, h1, h3⟩

/-- Append a list of known length on the left of a `getD`. -/
theorem getD_append_right_at (l l' : List Nat) {n : Nat} (i : Nat)
    (hn : l.length = n) : (l ++ l').getD (n + i) 0 = l'.getD i 0 := by
  subst hn
  exact getD_append_right l l' i

/-- Parsing lemma: if the 8192-byte window `buf` holds (pointwise) the
flat record encoding `enc` of `es` starting at `pos`, every blob fits
its `Vec<u8, B>`, the key codec round-trips, all lengths are valid
`u32` values, and the target store has room and no clashing keys, then
the `load_from_flash` record loop parses back exactly `es`, appending
it to the store. -/
theorem loadLoop_parse {K : Type} [DecidableEq K] {N B : Nat}
    (kEnc : K → Option (List Nat)) (kDec : List Nat → Option K)
    (hrt : ∀ k bs, kEnc k = some bs → kDec bs = some k)
    (buf : List Nat) (hbuf : buf.length = MAX_SERIALIZED_SIZE) :
    ∀ (es : List (K × List Nat)) (enc : List Nat) (pos : Nat)
      (s : KvStore K (List Nat) N),
      encListF kEnc es = some enc →
      pos + enc.length ≤ MAX_SERIALIZED_SIZE →
      (∀ i, i < enc.length → buf.getD (pos + i) 0 = enc.getD i 0) →
      (∀ p ∈ es, p.2.length ≤ B ∧ p.2.length < 4294967296 ∧
        ∀ kb, kEnc p.1 = some kb → kb.length < 4294967296) →
      ((s.map ++ es).map Prod.fst).Nodup →
      s.map.length + es.length ≤ N →
      loadLoop (N := N) kDec B buf es.length pos s =
        .ok (⟨s.map ++ es⟩, pos + enc.length) := by
  intro es
  induction es with
  | nil =>
    intro enc pos s henc hle hpt hent hnd hlen
    have h0 : some ([] : List Nat) = some enc := henc
    injection h0 with h0
    subst h0
    simp [loadLoop]
  | cons p rest ih =>
    obtain ⟨k, b⟩ := p
    intro enc pos s henc hle hpt hent hnd hlen
    simp only [encListF] at henc
    cases hkk : kEnc k with
    | none => rw [hkk] at henc; exact absurd henc (by simp)
    | some kb =>
    cases hR : encListF kEnc rest with
    | none => rw [hkk, hR] at henc; exact absurd henc (by simp)
    | some encR =>
    rw [hkk, hR] at henc
    simp only [Option.some.injEq] at henc
    subst henc
    -- entry-level facts
    obtain ⟨hbB', hb32', hkb32'⟩ := hent (k, b) (List.mem_cons_self _ _)
    have hbB : b.length ≤ B := hbB'
    have hb32 : b.length < 4294967296 := hb32'
    have hkb32 : kb.length < 4294967296 := hkb32' kb hkk
    -- right-associated view of the record bytes
    have hassoc : le4 kb.length ++ kb ++ le4 b.length ++ b ++ encR =
        le4 kb.length ++ (kb ++ (le4 b.length ++ (b ++ encR))) := by
      simp [List.append_assoc]
    have hlenE : (le4 kb.length ++ kb ++ le4 b.length ++ b ++ encR).length =
        4 + kb.length + 4 + b.length + encR.length := by
      simp only [List.length_append, le4_length]
    rw [hlenE] at hle hpt
    have hpt' : ∀ i, i < 4 + kb.length + 4 + b.length + encR.length →
        buf.getD (pos + i) 0 =
          (le4 kb.length ++ (kb ++ (le4 b.length ++ (b ++ encR)))).getD i 0 := by
      intro i hi
      rw [← hassoc]
      exact hpt i hi
    -- (2) the staged key length reads back
    have hkey : readLe4 buf pos = kb.length := by
      have h4 : ∀ i, i < 4 → buf.getD (pos + i) 0 = (le4 kb.length).getD i 0 := by
        intro i hi
        rw [hpt' i (by omega), getD_append_left (by rw [le4_length]; omega)]
      rw [readLe4_of_getD h4, Nat.mod_eq_of_lt hkb32]
    -- (4) the staged key bytes read back
    have hslice : listSlice buf (pos + 4) kb.length = kb := by
      apply listSlice_eq
      · omega
      · intro i hi
        have h1 : pos + 4 + i = pos + (4 + i) := by omega
        rw [h1, hpt' (4 + i) (by omega),
          getD_append_right_at _ _ i (le4_length kb.length),
          getD_append_left hi]
    -- (6) the staged value length reads back
    have hval : readLe4 buf (pos + 4 + kb.length) = b.length := by
      have h4 : ∀ i, i < 4 →
          buf.getD (pos + 4 + kb.length + i) 0 = (le4 b.length).getD i 0 := by
        intro i hi
        have h1 : pos + 4 + kb.length + i = pos + (4 + (kb.length + i)) := by omega
        rw [h1, hpt' (4 + (kb.length + i)) (by omega),
          getD_append_right_at _ _ (kb.length + i) (le4_length kb.length),
          getD_append_right_at _ _ i rfl,
          getD_append_left (by rw [le4_length]; omega)]
      rw [readLe4_of_getD h4, Nat.mod_eq_of_lt hb32]
    -- (8) the staged blob reads back
    have hblob : listSlice buf (pos + 4 + kb.length + 4) b.length = b := by
      apply listSlice_eq
      · omega
      · intro i hi
        have h1 : pos + 4 + kb.length + 4 + i =
            pos + (4 + (kb.length + (4 + i))) := by omega
        rw [h1, hpt' (4 + (kb.length + (4 + i))) (by omega),
          getD_append_right_at _ _ (kb.length + (4 + i)) (le4_length kb.length),
          getD_append_right_at _ _ (4 + i) rfl,
          getD_append_right_at _ _ i (le4_length b.length),
          getD_append_left hi]
    -- (9) the insert succeeds by appending
    have hknotin : k ∉ s.map.map Prod.fst := by
      rw [List.map_append, List.nodup_append] at hnd
      intro hmem
      exact hnd.2.2 hmem (by simp)
    have hget : assocGet s.map k = none := (assocGet_eq_none_iff _ _).mpr hknotin
    have hput : (⟨s.map⟩ : KvStore K (List Nat) N).put k b =
        .ok (none, ⟨s.map ++ [(k, b)]⟩) := by
      apply KvStore.put_absent
      · exact hget
      · show s.map.length ≠ N
        simp only [List.length_cons] at hlen
        omega
    -- (10) the recursive call
    have hndR : (((s.map ++ [(k, b)]) ++ rest).map Prod.fst).Nodup := by
      rw [List.append_assoc, List.singleton_append]
      exact hnd
    have hrec := ih encR (pos + 4 + kb.length + 4 + b.length) ⟨s.map ++ [(k, b)]⟩
      hR (by omega)
      (by
        intro i hi
        have h1 : pos + 4 + kb.length + 4 + b.length + i =
            pos + (4 + (kb.length + (4 + (b.length + i)))) := by omega
        rw [h1, hpt' (4 + (kb.length + (4 + (b.length + i)))) (by omega),
          getD_append_right_at _ _ (kb.length + (4 + (b.length + i))) (le4_length kb.length),
          getD_append_right_at _ _ (4 + (b.length + i)) rfl,
          getD_append_right_at _ _ (b.length + i) (le4_length b.length),
          getD_append_right_at _ _ i rfl])
      (fun q hq => hent q (List.mem_cons_of_mem _ hq))
      hndR
      (by simp only [List.length_append, List.length_cons, List.length_nil] at hlen ⊢; omega)
    -- (11) assemble
    simp only [loadLoop, List.length_cons]
    rw [if_neg (show ¬pos + 4 > MAX_SERIALIZED_SIZE by omega)]
    rw [hkey]
    rw [if_neg (show ¬pos + 4 + kb.length > MAX_SERIALIZED_SIZE by omega)]
    rw [hslice, hrt k kb hkk]
    simp only []
    rw [if_neg (show ¬pos + 4 + kb.length + 4 > MAX_SERIALIZED_SIZE by omega)]
    rw [hval]
    rw [if_neg (show ¬pos + 4 + kb.length + 4 + b.length > MAX_SERIALIZED_SIZE by omega)]
    rw [if_neg (show ¬b.length > B by omega)]
    rw [hblob]
    have hseta : (⟨s.map⟩ : KvStore K (List Nat) N) = s := rfl
    rw [hseta] at hput
    rw [hput]
    simp only []
    rw [hrec]
    congr 1
    refine Prod.ext ?_ ?_
    · simp [List.append_assoc]
    · simp only []
      rw [hlenE]
      omega

/-- A word-multiple byte sequence needs no 0xFF tail padding. -/
theorem padToWord_of_aligned {d : List Nat} (h : d.length % 4 = 0) :
    padToWord d = d := by
  unfold padToWord
  rw [h]
  simp

/-- C1: flash round trip.  When the serialized contents fit the staging
buffer (staging succeeds) and the save offset is page-aligned (a
misaligned offset fails the save on erase), `save_to_flash` (with the
4-byte header size the repository passes) succeeds, and
`load_from_flash` from the same offset on a freshly constructed empty
database of the same shape reconstructs the same contents: the blob
store is rebuilt entry for entry, `len()` matches the saved store's,
and `get_uncached` returns exactly what the saved store held, for every
key. -/
theorem claim_C1_flash_roundtrip {K V : Type} [DecidableEq K] {N B CACH : Nat}
    (kEnc : K → Option (List Nat)) (kDec : List Nat → Option K)
    (vDec : List Nat → Option V)
    (hrt : ∀ k bs, kEnc k = some bs → kDec bs = some k)
    (db : Database K V N B CACH) (mem : Nat → Nat) (off : Nat)
    (hwf : StoreWF N B db.blobs.map)
    (hoff : off % PAGE_SIZE = 0)
    (out : List Nat)
    (hstage : stageImage kEnc db.blobs.map 4 = .ok out) :
    save_to_flash kEnc db mem 4 off = .ok (savedFlash mem off out)
    ∧ load_from_flash kDec (Database.new : Database K V N B CACH)
        (savedFlash mem off out) off = .ok ⟨db.blobs, []⟩
    ∧ (⟨db.blobs, []⟩ : Database K V N B CACH).len = db.len
    ∧ ∀ k, (⟨db.blobs, []⟩ : Database K V N B CACH).get_uncached vDec k
        = db.get_uncached vDec k := by
  have hp4096 : PAGE_SIZE = 4096 := rfl
  have hmax : MAX_SERIALIZED_SIZE = 8192 := rfl
  -- unpack the staging run
  have hstage' := hstage
  unfold stageImage at hstage'
  rw [if_neg (by decide)] at hstage'
  obtain ⟨enc, henc, hout, hle, hmin, hents⟩ :=
    stageEntries_ok_spec kEnc db.blobs.map _ out (by rw [le4_length]; decide) hstage'
  have hsmall : db.blobs.map.length ≤ 1023 := by
    rw [hout] at hle hmin
    simp only [List.length_append, le4_length] at hle hmin
    omega
  have hmod : db.blobs.map.length % 4294967296 = db.blobs.map.length :=
    Nat.mod_eq_of_lt (by omega)
  rw [hmod] at hout
  have houtlen : out.length = 4 + enc.length := by
    rw [hout]
    simp only [List.length_append, le4_length]
  -- the flash write
  have halign_ge : out.length ≤ alignUp4 out.length := by
    unfold alignUp4
    omega
  have halign4 : alignUp4 out.length % 4 = 0 := by
    unfold alignUp4
    omega
  have hdatalen :
      (out ++ List.replicate (alignUp4 out.length - out.length) 0).length =
        alignUp4 out.length := by
    simp only [List.length_append, List.length_replicate]
    omega
  have halign_le : alignUp4 out.length ≤ MAX_SERIALIZED_SIZE := by
    unfold alignUp4
    omega
  have hw4 : WRITE_ALIGNMENT = 4 := rfl
  have hoff' : off % 4096 = 0 := hp4096 ▸ hoff
  have hsave : save_to_flash kEnc db mem 4 off = .ok (savedFlash mem off out) := by
    simp only [save_to_flash]
    rw [hstage]
    simp only [FlashStorage.erase, FlashStorage.write, FlashStorage.write_bytes,
      hp4096, hw4]
    rw [if_neg (by omega)]
    simp only []
    rw [if_neg (by omega)]
    simp only [savedFlash, hp4096]
    rw [padToWord_of_aligned (by rw [hdatalen]; exact halign4)]
  -- the read-back window agrees with the staged bytes
  have hw : ∀ i, i < out.length →
      (readBytesF (savedFlash mem off out) off MAX_SERIALIZED_SIZE).getD i 0 =
        out.getD i 0 := by
    intro i hi
    rw [readBytesF_getD (by omega)]
    unfold savedFlash writeImg
    rw [if_pos ⟨Nat.le_add_right off i, by rw [hdatalen]; omega⟩]
    have h1 : off + i - off = i := by omega
    rw [h1, getD_append_left hi]
  have hbuflen :
      (readBytesF (savedFlash mem off out) off MAX_SERIALIZED_SIZE).length =
        MAX_SERIALIZED_SIZE := readBytesF_length _ _ _
  have hheader :
      readLe4 (readBytesF (savedFlash mem off out) off MAX_SERIALIZED_SIZE) 0 =
        db.blobs.map.length := by
    have h4 : ∀ i, i < 4 →
        (readBytesF (savedFlash mem off out) off MAX_SERIALIZED_SIZE).getD (0 + i) 0 =
          (le4 db.blobs.map.length).getD i 0 := by
      intro i hi
      rw [Nat.zero_add, hw i (by omega), hout, getD_append_left (by rw [le4_length]; omega)]
    rw [readLe4_of_getD h4, hmod]
  -- the parse
  have hparse := loadLoop_parse (N := N) (B := B) kEnc kDec hrt
    (readBytesF (savedFlash mem off out) off MAX_SERIALIZED_SIZE) hbuflen
    db.blobs.map enc 4 ⟨[]⟩ henc
    (by omega)
    (by
      intro i hi
      rw [hw (4 + i) (by omega), hout, getD_append_right_at _ _ i (le4_length _)])
    (by
      intro p hp
      obtain ⟨kb, hkb, hkblen, hblen⟩ := hents p hp
      refine ⟨hwf.2.2 p hp, hblen, ?_⟩
      intro kb' hkb'
      rw [hkb] at hkb'
      injection hkb' with hkb'
      rw [← hkb']
      omega)
    (by simpa using hwf.1)
    (by simpa using hwf.2.1)
  refine ⟨hsave, ?_, rfl, fun k => rfl⟩
  simp only [load_from_flash]
  rw [hheader]
  rw [if_neg (by omega)]
  rw [hparse]
  rw [loadFinish_ok]
  rfl

set_option maxRecDepth 40000 in
/-- Witness for C1: the concrete store `dbW` staged to `imgBytesW`,
saved at page-aligned offset 0 of fully erased flash and loaded back into
a fresh empty database. -/
theorem claim_C1_flash_roundtrip_witness :
    save_to_flash byteKeyEnc dbW (fun _ => 255) 4 0 =
      .ok (savedFlash (fun _ => 255) 0 imgBytesW)
    ∧ load_from_flash byteKeyDec (Database.new : Database Nat Nat 16 256 4)
        (savedFlash (fun _ => 255) 0 imgBytesW) 0 = .ok ⟨dbW.blobs, []⟩
    ∧ (⟨dbW.blobs, []⟩ : Database Nat Nat 16 256 4).len = dbW.len
    ∧ ∀ k, (⟨dbW.blobs, []⟩ : Database Nat Nat 16 256 4).get_uncached byteValDec k
        = dbW.get_uncached byteValDec k :=
  claim_C1_flash_roundtrip byteKeyEnc byteKeyDec byteValDec byteKey_rt
    dbW (fun _ => 255) 0 (by decide) (by decide) imgBytesW (by decide)

/-- The record-parse loop never panics: every buffer access is
bounds-checked first. -/
theorem loadLoop_ne_crash {K : Type} [DecidableEq K] {N B : Nat}
    (kDec : List Nat → Option K) (buf : List Nat) :
    ∀ (n pos : Nat) (s : KvStore K (List Nat) N),
      loadLoop (N := N) kDec B buf n pos s ≠ .crash := by
  intro n
  induction n with
  | zero =>
    intro pos s
    simp [loadLoop]
  | succ m ih =>
    intro pos s
    simp only [loadLoop]
    repeat' split
    all_goals first
      | exact ih _ _
      | simp

/-- `loadFinish` never panics on a non-panicking parse result. -/
theorem loadFinish_ne_crash {K V : Type} {N B CACH : Nat}
    {r : Outcome (KvStore K (List Nat) N × Nat)} (h : r ≠ .crash) :
    (loadFinish r : Outcome (Database K V N B CACH)) ≠ .crash := by
  cases r with
  | ok p => obtain ⟨a, c⟩ := p; simp [loadFinish]
  | err e => simp [loadFinish]
  | crash => exact absurd rfl h

/-- Counterexample to C4 as stated: `save_to_flash` called with
`flash_size = 0` (or any value other than 4) panics — the header
`copy_from_slice` copies 4 bytes into a 0-byte slice — instead of
reporting an error through its `Result`. -/
theorem claim_C4_counterexample :
    save_to_flash byteKeyEnc (Database.new : Database Nat Nat 4 8 2)
      (fun _ => 255) 0 0 = .crash := rfl

/-- C4 amended: `load_from_flash`, and `save_to_flash` on any run whose
staging succeeds, never panic — every failure travels through the
returned `Result`; but `save_to_flash` panics for every
`flash_size ≠ 4` (the header `copy_from_slice` length mismatch), and
(see `stageEntries`) the staging loop itself has panicking buffer-edge
cases, so the blanket claim fails on `save_to_flash`.  The `KvStore`,
`Database` and `FlashStorage` operations are total functions of the
model and have no panic outcome at all. -/
theorem claim_C4_amended :
    (∀ (K V : Type) [DecidableEq K] (N B CACH : Nat)
      (kDec : List Nat → Option K) (db : Database K V N B CACH)
      (mem : Nat → Nat) (off : Nat),
      load_from_flash kDec db mem off ≠ .crash)
    ∧ (∀ (K V : Type) [DecidableEq K] (N B CACH : Nat)
      (kEnc : K → Option (List Nat)) (db : Database K V N B CACH)
      (mem : Nat → Nat) (fs off : Nat), fs ≠ 4 →
      save_to_flash kEnc db mem fs off = .crash)
    ∧ (∀ (K V : Type) [DecidableEq K] (N B CACH : Nat)
      (kEnc : K → Option (List Nat)) (db : Database K V N B CACH)
      (mem : Nat → Nat) (off : Nat) (out : List Nat),
      stageImage kEnc db.blobs.map 4 = .ok out →
      save_to_flash kEnc db mem 4 off ≠ .crash) := by
  refine ⟨?_, ?_, ?_⟩
  · intro K V _ N B CACH kDec db mem off
    simp only [load_from_flash]
    split
    · simp
    · exact loadFinish_ne_crash (loadLoop_ne_crash kDec _ _ _ _)
  · intro K V _ N B CACH kEnc db mem fs off h
    simp only [save_to_flash, stageImage]
    rw [if_pos h]
  · intro K V _ N B CACH kEnc db mem off out hst
    simp only [save_to_flash]
    rw [hst]
    simp only []
    cases he : FlashStorage.erase mem off
        (off + (alignUp4 out.length + PAGE_SIZE - 1) / PAGE_SIZE * PAGE_SIZE) with
    | error e => simp
    | ok mem1 =>
      simp only []
      cases hw : FlashStorage.write mem1 off
          (out ++ List.replicate (alignUp4 out.length - out.length) 0) with
      | error e => simp
      | ok mem2 => simp

/-- Witness for the amended C4 at concrete inputs: a concrete load does
not panic, a save with `flash_size = 0` panics, and the concrete save of
`dbW` (whose staging succeeds) does not panic. -/
theorem claim_C4_amended_witness :
    load_from_flash byteKeyDec (Database.new : Database Nat Nat 4 8 2)
        (fun _ => 255) 0 ≠ .crash
    ∧ save_to_flash byteKeyEnc (Database.new : Database Nat Nat 4 8 2)
        (fun _ => 255) 0 0 = .crash
    ∧ save_to_flash byteKeyEnc dbW (fun _ => 255) 4 0 ≠ .crash := by
  refine ⟨claim_C4_amended.1 Nat Nat 4 8 2 byteKeyDec _ _ 0, ?_, ?_⟩
  · exact claim_C4_amended.2.1 Nat Nat 4 8 2 byteKeyEnc _ _ 0 0 (by decide)
  · exact claim_C4_amended.2.2 Nat Nat 16 256 4 byteKeyEnc dbW _ 0 imgBytesW
      (by decide)

/-- Counterexample to C5 as stated: the misaligned write at offset 2 is
rejected with `OutOfBounds`, not the claimed `Unaligned`; the misaligned
erase is rejected with the generic `Other`; and a read entirely beyond
the driver's 64 KiB region is not rejected at all — it succeeds. -/
theorem claim_C5_counterexample :
    FlashStorage.write_bytes (fun _ => 255) 2 [1, 2, 3, 4] = .error .OutOfBounds
    ∧ HwFlashError.OutOfBounds ≠ HwFlashError.Unaligned
    ∧ FlashStorage.erase (fun _ => 255) 1 4096 = .error .Other
    ∧ ∃ bs, FlashStorage.read (fun _ => 255) (FlashStorage.capacity + 1000) 4 =
        .ok bs :=
  ⟨rfl, by decide, rfl, ⟨_, rfl⟩⟩

/-- C5 amended: alignment violations at the driver boundary are indeed
detected and rejected before any hardware operation (the error path
returns without any memory effect), but the error values differ from the
claim: a misaligned `write` fails with `OutOfBounds` (the `Unaligned`
variant is never constructed by the driver), a misaligned `erase` fails
with `Other`, and `read` performs no bounds check whatsoever — every
read, at any offset, succeeds. -/
theorem claim_C5_amended :
    (∀ (mem : Nat → Nat) (off : Nat) (data : List Nat), off % 4 ≠ 0 →
      FlashStorage.write_bytes mem off data = .error .OutOfBounds)
    ∧ (∀ (mem : Nat → Nat) (lo hi : Nat), lo % 4096 ≠ 0 ∨ hi % 4096 ≠ 0 →
      FlashStorage.erase mem lo hi = .error .Other)
    ∧ (∀ (mem : Nat → Nat) (off len : Nat),
      FlashStorage.read mem off len = .ok (readBytesF mem off len)) := by
  refine ⟨?_, ?_, fun mem off len => rfl⟩
  · intro mem off data h
    unfold FlashStorage.write_bytes
    simp only [WRITE_ALIGNMENT]
    rw [if_pos h]
  · intro mem lo hi h
    unfold FlashStorage.erase
    simp only [PAGE_SIZE]
    rw [if_pos h]

/-- Witness for the amended C5 at concrete inputs. -/
theorem claim_C5_amended_witness :
    FlashStorage.write_bytes (fun _ => 0) 2 [7] = .error .OutOfBounds
    ∧ FlashStorage.erase (fun _ => 0) 1 4096 = .error .Other
    ∧ FlashStorage.read (fun _ => 0) 70000 4 =
        .ok (readBytesF (fun _ => 0) 70000 4) :=
  ⟨claim_C5_amended.1 (fun _ => 0) 2 [7] (by decide),
   claim_C5_amended.2.1 (fun _ => 0) 1 4096 (Or.inl (by decide)),
   claim_C5_amended.2.2 (fun _ => 0) 70000 4⟩

/-! ## Cache lemmas for C7 / C8 -/

section CacheLemmas

variable [DecidableEq K]

/-- With distinct keys, an entry of `assocReplace m k v` is either an
untouched entry whose key differs from `k`, or the new pair. -/
theorem assocReplace_mem_nodup {m : List (K × V)} {k : K} {v : V} {p : K × V}
    (hd : (m.map Prod.fst).Nodup) (h : p ∈ assocReplace m k v) :
    (p ∈ m ∧ p.1 ≠ k) ∨ p = (k, v) := by
  induction m with
  | nil => simp [assocReplace] at h
  | cons q t ih =>
    obtain ⟨a, b⟩ := q
    simp only [List.map_cons, List.nodup_cons] at hd
    by_cases hak : a = k
    · subst hak
      simp only [assocReplace, if_pos rfl] at h
      rcases List.mem_cons.mp h with heq | hmem
      · exact Or.inr heq
      · refine Or.inl ⟨List.mem_cons_of_mem _ hmem, ?_⟩
        intro hpk
        exact hd.1 (List.mem_map.mpr ⟨p, hmem, hpk⟩)
    · simp only [assocReplace, if_neg hak] at h
      rcases List.mem_cons.mp h with heq | hmem
      · subst heq
        exact Or.inl ⟨List.mem_cons_self _ _, hak⟩
      · rcases ih hd.2 hmem with ⟨hm, hne⟩ | hp
        · exact Or.inl ⟨List.mem_cons_of_mem _ hm, hne⟩
        · exact Or.inr hp

/-- With distinct keys, an entry surviving `assocErase m k` is an entry
of `m` whose key differs from `k`. -/
theorem assocErase_mem_nodup {m : List (K × V)} {k : K} {p : K × V}
    (hd : (m.map Prod.fst).Nodup) (h : p ∈ assocErase m k) :
    p ∈ m ∧ p.1 ≠ k := by
  induction m with
  | nil => simp [assocErase] at h
  | cons q t ih =>
    obtain ⟨a, b⟩ := q
    simp only [List.map_cons, List.nodup_cons] at hd
    by_cases hak : a = k
    · subst hak
      simp only [assocErase, if_pos rfl] at h
      refine ⟨List.mem_cons_of_mem _ h, ?_⟩
      intro hpk
      exact hd.1 (List.mem_map.mpr ⟨p, h, hpk⟩)
    · simp only [assocErase, if_neg hak] at h
      rcases List.mem_cons.mp h with heq | hmem
      · subst heq
        exact ⟨List.mem_cons_self _ _, hak⟩
      · obtain ⟨hm, hne⟩ := ih hd.2 hmem
        exact ⟨List.mem_cons_of_mem _ hm, hne⟩

/-- The cache step keeps keys distinct. -/
theorem cachePutEvict_nodup {CACH : Nat} {c : List (K × V)}
    (hd : (c.map Prod.fst).Nodup) (k : K) (v : V) :
    ((Database.cachePutEvict CACH c k v).map Prod.fst).Nodup := by
  have hd1 : (((if c.length = CACH then c.tail else c) : List (K × V)).map
      Prod.fst).Nodup := by
    split
    · exact hd.sublist ((List.tail_sublist c).map Prod.fst)
    · exact hd
  unfold Database.cachePutEvict
  simp only []
  generalize hq : (if c.length = CACH then c.tail else c : List (K × V)) = c1
  rw [hq] at hd1
  cases hg : assocGet c1 k with
  | some w =>
    simp only []
    rw [assocReplace_keys]
    exact hd1
  | none =>
    simp only []
    split
    · exact hd1
    · rw [List.map_append, List.nodup_append]
      refine ⟨hd1, by simp, ?_⟩
      intro a ha hb
      simp only [List.map_cons, List.map_nil, List.mem_singleton] at hb
      subst hb
      exact (assocGet_eq_none_iff _ a).mp hg ha

/-- Pointwise preservation through the cache step: if every untouched
entry (key ≠ `k`) satisfies `P` and the inserted pair does, every entry
of the updated cache satisfies `P`. -/
theorem cachePutEvict_pred {CACH : Nat} {c : List (K × V)} {k : K} {v : V}
    {P : K × V → Prop}
    (hd : (c.map Prod.fst).Nodup)
    (hc : ∀ p ∈ c, p.1 ≠ k → P p) (hkv : P (k, v)) :
    ∀ p ∈ Database.cachePutEvict CACH c k v, P p := by
  have hsub1 : ∀ q : K × V, q ∈ (if c.length = CACH then c.tail else c) → q ∈ c := by
    intro q hq
    split at hq
    · exact (List.tail_sublist c).mem hq
    · exact hq
  have hd1 : (((if c.length = CACH then c.tail else c) : List (K × V)).map
      Prod.fst).Nodup := by
    split
    · exact hd.sublist ((List.tail_sublist c).map Prod.fst)
    · exact hd
  intro p hp
  unfold Database.cachePutEvict at hp
  simp only [] at hp
  rw [show (if c.length = CACH then c.tail else c : List (K × V)) =
      (if c.length = CACH then c.tail else c : List (K × V)) from rfl] at hp
  revert hp
  generalize hq : (if c.length = CACH then c.tail else c : List (K × V)) = c1
  intro hp
  rw [hq] at hsub1 hd1
  cases hg : assocGet c1 k with
  | some w =>
    rw [hg] at hp
    simp only [] at hp
    rcases assocReplace_mem_nodup hd1 hp with ⟨hm, hne⟩ | hpkv
    · exact hc p (hsub1 p hm) hne
    · rw [hpkv]; exact hkv
  | none =>
    rw [hg] at hp
    simp only [] at hp
    split at hp
    · refine hc p (hsub1 p hp) ?_
      intro hpk
      exact (assocGet_eq_none_iff _ _).mp hg
        (List.mem_map.mpr ⟨p, hp, hpk⟩)
    · rcases List.mem_append.mp hp with hm | hnew
      · refine hc p (hsub1 p hm) ?_
        intro hpk
        exact (assocGet_eq_none_iff _ _).mp hg
          (List.mem_map.mpr ⟨p, hm, hpk⟩)
      · simp only [List.mem_singleton] at hnew
        rw [hnew]; exact hkv

/-- `KvStore.put` success: the new store maps `k` to `v` and every other
key to its previous binding. -/
theorem KvStore.put_ok_get {N : Nat} {s : KvStore K V N} {k : K} {v : V}
    {old : Option V} {s' : KvStore K V N}
    (h : s.put k v = .ok (old, s')) :
    s'.get k = some v ∧ ∀ q, q ≠ k → s'.get q = s.get q := by
  unfold KvStore.put at h
  split at h
  · cases h
  · cases hg : assocGet s.map k with
    | some w =>
      rw [hg] at h
      injection h with h
      injection h with h1 h2
      subst h2
      constructor
      · exact assocGet_replace_self v hg
      · intro q hq
        exact assocGet_replace_ne s.map v hq
    | none =>
      rw [hg] at h
      injection h with h
      injection h with h1 h2
      subst h2
      constructor
      · show assocGet (s.map ++ [(k, v)]) k = some v
        rw [assocGet_append_of_none _ hg]
        simp [assocGet]
      · intro q hq
        show assocGet (s.map ++ [(k, v)]) q = assocGet s.map q
        cases hq2 : assocGet s.map q with
        | some w => exact assocGet_append_of_some _ hq2
        | none =>
          rw [assocGet_append_of_none _ hq2]
          have : ¬k = q := fun hh => hq hh.symm
          simp [assocGet, this]

end CacheLemmas

/-! ## Coherence through the operations (C7 / C8) -/

section Coherence

variable [DecidableEq K] {N B CACH : Nat}

theorem CacheOK_new (vDec : List Nat → Option V) :
    CacheOK vDec (Database.new : Database K V N B CACH) :=
  ⟨by simp [Database.new], by simp [Database.new]⟩

theorem CacheOK_put {vEnc : Nat → V → Option (List Nat)}
    {vDec : List Nat → Option V}
    (hrtv : ∀ v bs, vEnc B v = some bs → vDec bs = some v)
    {db db' : Database K V N B CACH} {k : K} {v : V}
    (hok : CacheOK vDec db) (h : db.put vEnc k v = some db') :
    CacheOK vDec db' := by
  unfold Database.put at h
  cases he : vEnc B v with
  | none => rw [he] at h; cases h
  | some bs =>
    rw [he] at h
    simp only [] at h
    split at h
    · cases h
    cases hp : db.blobs.put k bs with
    | error p => rw [hp] at h; cases h
    | ok r =>
      rw [hp] at h
      obtain ⟨old, blobs'⟩ := r
      simp only [] at h
      injection h with h
      subst h
      obtain ⟨hg1, hg2⟩ := KvStore.put_ok_get hp
      refine ⟨cachePutEvict_nodup hok.1 k v, ?_⟩
      intro p hp
      refine cachePutEvict_pred (P := fun p => ∃ bs0, blobs'.get p.1 = some bs0
          ∧ vDec bs0 = some p.2) hok.1 ?_ ?_ p hp
      · intro q hqmem hqne
        obtain ⟨bs0, hbs0, hdec0⟩ := hok.2 q hqmem
        exact ⟨bs0, by rw [hg2 q.1 hqne]; exact hbs0, hdec0⟩
      · exact ⟨bs, hg1, hrtv v bs he⟩

theorem CacheOK_get {vDec : List Nat → Option V}
    {db db' : Database K V N B CACH} {k : K} {r : Option V}
    (hok : CacheOK vDec db) (h : db.get vDec k = some (r, db')) :
    CacheOK vDec db' := by
  unfold Database.get at h
  cases hc : assocGet db.cache k with
  | some v =>
    rw [hc] at h
    simp only [] at h
    injection h with h
    injection h with h1 h2
    subst h2
    exact hok
  | none =>
    rw [hc] at h
    simp only [] at h
    cases hb : db.blobs.get k with
    | none =>
      rw [hb] at h
      simp only [] at h
      injection h with h
      injection h with h1 h2
      subst h2
      exact hok
    | some bs =>
      rw [hb] at h
      simp only [] at h
      cases hd : vDec bs with
      | none => rw [hd] at h; cases h
      | some val =>
        rw [hd] at h
        simp only [] at h
        injection h with h
        injection h with h1 h2
        subst h2
        refine ⟨cachePutEvict_nodup hok.1 k val, ?_⟩
        intro p hp
        refine cachePutEvict_pred (P := fun p => ∃ bs0, db.blobs.get p.1 = some bs0
            ∧ vDec bs0 = some p.2) hok.1 ?_ ?_ p hp
        · intro q hqm hqne
          exact hok.2 q hqm
        · exact ⟨bs, hb, hd⟩

theorem CacheOK_delete {vDec : List Nat → Option V}
    {db : Database K V N B CACH} (k : K)
    (hok : CacheOK vDec db) : CacheOK vDec (db.delete k).2 := by
  unfold Database.delete KvStore.remove
  simp only []
  refine ⟨?_, ?_⟩
  · exact hok.1.sublist ((assocErase_sublist db.cache k).map Prod.fst)
  · intro p hp
    obtain ⟨hm, hne⟩ := assocErase_mem_nodup hok.1 hp
    obtain ⟨bs0, hbs0, hdec0⟩ := hok.2 p hm
    refine ⟨bs0, ?_, hdec0⟩
    show assocGet (assocErase db.blobs.map k) p.1 = some bs0
    rw [assocGet_erase_ne _ hne]
    exact hbs0

/-- The coherence invariant holds in every state reachable by
`put`/`get`/`delete` from a fresh store (given a lawful value codec). -/
theorem Reach_CacheOK {vEnc : Nat → V → Option (List Nat)}
    {vDec : List Nat → Option V}
    (hrtv : ∀ v bs, vEnc B v = some bs → vDec bs = some v)
    {db : Database K V N B CACH} (h : Reach vEnc vDec db) :
    CacheOK vDec db := by
  induction h with
  | init => exact CacheOK_new vDec
  | put db k v db' _ hp ih => exact CacheOK_put hrtv ih hp
  | get db k r db' _ hg ih => exact CacheOK_get ih hg
  | delete db k _ ih => exact CacheOK_delete k ih

/-- On a coherent store, `get` returns (besides the updated cache state)
exactly what `get_uncached` returns. -/
theorem get_agrees_uncached {vDec : List Nat → Option V}
    {db : Database K V N B CACH}
    (hok : CacheOK vDec db) (k : K) :
    Option.map Prod.fst (db.get vDec k) = db.get_uncached vDec k := by
  unfold Database.get Database.get_uncached
  cases hc : assocGet db.cache k with
  | some v =>
    obtain ⟨bs, hbs, hdec⟩ := hok.2 (k, v) (assocGet_mem hc)
    have hbs' : db.blobs.get k = some bs := hbs
    have hdec' : vDec bs = some v := hdec
    rw [hbs']
    simp [hdec']
  | none =>
    cases hb : db.blobs.get k with
    | none => simp
    | some bs =>
      cases hd : vDec bs with
      | none => simp [hd]
      | some val => simp [hd]

end Coherence

/-- C7: cache transparency.  For every key and every state reachable by
any prior sequence of `put` / `get` / `delete` calls (with a value codec
whose decode inverts its encode — the coherence a lawful `Codec` pair
provides), `get` returns the same decoded value as `get_uncached`
(present, absent and decode-failure cases alike): the hot cache never
diverges from the backing `KvStore`. -/
theorem claim_C7_cache_transparency {K V : Type} [DecidableEq K] {N B CACH : Nat}
    (vEnc : Nat → V → Option (List Nat)) (vDec : List Nat → Option V)
    (hrtv : ∀ v bs, vEnc B v = some bs → vDec bs = some v)
    (db : Database K V N B CACH) (hre : Reach vEnc vDec db) (k : K) :
    Option.map Prod.fst (db.get vDec k) = db.get_uncached vDec k :=
  get_agrees_uncached (Reach_CacheOK hrtv hre) k

/-- Witness for C7 in the state reached by `put 1 100` from a fresh
store, probing the cached key 1. -/
theorem claim_C7_cache_transparency_witness :
    Option.map Prod.fst
        ((⟨⟨[(1, [100])]⟩, [(1, 100)]⟩ : Database Nat Nat 4 8 2).get byteValDec 1)
      = (⟨⟨[(1, [100])]⟩, [(1, 100)]⟩ :
          Database Nat Nat 4 8 2).get_uncached byteValDec 1 := by
  have hre : Reach byteValEnc byteValDec
      (⟨⟨[(1, [100])]⟩, [(1, 100)]⟩ : Database Nat Nat 4 8 2) :=
    Reach.put Database.new 1 100 _ Reach.init (by decide)
  exact claim_C7_cache_transparency byteValEnc byteValDec (byteVal_rt 8) _ hre 1

/-- An empty cache trivially satisfies the containment invariant. -/
theorem CacheSub_of_cache_nil {K V : Type} [DecidableEq K] {N B CACH : Nat}
    {db : Database K V N B CACH} (h : db.cache = []) : CacheSub db := by
  unfold CacheSub
  rw [h]
  simp

/-- C8: the containment invariant — every key in the hot cache is also
present in the `KvStore` — is preserved by every state-changing
operation: `put`, `get` (its read-through population), `delete`, and
`load_from_flash`; `get_uncached` and `save_to_flash` take the store
immutably (in the model they return no store at all) and cannot disturb
it.  In particular `delete k` removes `k` from both structures. -/
theorem claim_C8_cache_contained {K V : Type} [DecidableEq K] {N B CACH : Nat}
    (vEnc : Nat → V → Option (List Nat)) (vDec : List Nat → Option V)
    (kDec : List Nat → Option K)
    (db : Database K V N B CACH) (hsub : CacheSub db) :
    (∀ (k : K) (v : V) db', db.put vEnc k v = some db' → CacheSub db')
    ∧ (∀ (k : K) r db', db.get vDec k = some (r, db') → CacheSub db')
    ∧ (∀ k : K, CacheSub (db.delete k).2)
    ∧ (∀ (mem : Nat → Nat) (off : Nat) db',
        load_from_flash kDec db mem off = .ok db' → CacheSub db')
    ∧ (∀ k : K, (db.blobs.map.map Prod.fst).Nodup →
        (db.delete k).2.blobs.get k = none
          ∧ assocGet (db.delete k).2.cache k = none) := by
  refine ⟨?_, ?_, ?_, ?_, ?_⟩
  · -- put
    intro k v db' h
    unfold Database.put at h
    cases he : vEnc B v with
    | none => rw [he] at h; cases h
    | some bs =>
      rw [he] at h
      simp only [] at h
      split at h
      · cases h
      cases hp : db.blobs.put k bs with
      | error p => rw [hp] at h; cases h
      | ok r =>
        rw [hp] at h
        obtain ⟨old, blobs'⟩ := r
        simp only [] at h
        injection h with h
        subst h
        obtain ⟨hg1, hg2⟩ := KvStore.put_ok_get hp
        refine ⟨cachePutEvict_nodup hsub.1 k v, ?_⟩
        intro p hp'
        refine cachePutEvict_pred (P := fun p => (blobs'.get p.1).isSome)
          hsub.1 ?_ ?_ p hp'
        · intro q hqm hqne
          rw [hg2 q.1 hqne]
          exact hsub.2 q hqm
        · simp [hg1]
  · -- get
    intro k r db' h
    unfold Database.get at h
    cases hc : assocGet db.cache k with
    | some v =>
      rw [hc] at h
      simp only [] at h
      injection h with h
      injection h with h1 h2
      subst h2
      exact hsub
    | none =>
      rw [hc] at h
      simp only [] at h
      cases hb : db.blobs.get k with
      | none =>
        rw [hb] at h
        simp only [] at h
        injection h with h
        injection h with h1 h2
        subst h2
        exact hsub
      | some bs =>
        rw [hb] at h
        simp only [] at h
        cases hd : vDec bs with
        | none => rw [hd] at h; cases h
        | some val =>
          rw [hd] at h
          simp only [] at h
          injection h with h
          injection h with h1 h2
          subst h2
          refine ⟨cachePutEvict_nodup hsub.1 k val, ?_⟩
          intro p hp'
          refine cachePutEvict_pred (P := fun p => (db.blobs.get p.1).isSome)
            hsub.1 ?_ ?_ p hp'
          · intro q hqm hqne
            exact hsub.2 q hqm
          · simp [hb]
  · -- delete
    intro k
    unfold Database.delete KvStore.remove
    simp only []
    refine ⟨hsub.1.sublist ((assocErase_sublist db.cache k).map Prod.fst), ?_⟩
    intro p hp
    obtain ⟨hm, hne⟩ := assocErase_mem_nodup hsub.1 hp
    show (assocGet (assocErase db.blobs.map k) p.1).isSome
    rw [assocGet_erase_ne _ hne]
    exact hsub.2 p hm
  · -- load
    intro mem off db' h
    simp only [load_from_flash] at h
    split at h
    · injection h with h
      subst h
      exact hsub
    · exact CacheSub_of_cache_nil (loadFinish_cache _ h)
  · -- delete removes the key from both structures
    intro k hnd
    constructor
    · show assocGet (assocErase db.blobs.map k) k = none
      exact assocGet_erase_self hnd
    · show assocGet (assocErase db.cache k) k = none
      exact assocGet_erase_self hsub.1

/-- Witness for C8 at a concrete one-entry store with a populated
cache. -/
theorem claim_C8_cache_contained_witness :
    CacheSub (⟨⟨[(1, [100])]⟩, [(1, 100)]⟩ : Database Nat Nat 4 8 2)
    ∧ CacheSub ((⟨⟨[(1, [100])]⟩, [(1, 100)]⟩ : Database Nat Nat 4 8 2).delete 1).2
    ∧ ((⟨⟨[(1, [100])]⟩, [(1, 100)]⟩ :
          Database Nat Nat 4 8 2).delete 1).2.blobs.get 1 = none
    ∧ assocGet ((⟨⟨[(1, [100])]⟩, [(1, 100)]⟩ :
          Database Nat Nat 4 8 2).delete 1).2.cache 1 = none := by
  have hsub : CacheSub (⟨⟨[(1, [100])]⟩, [(1, 100)]⟩ : Database Nat Nat 4 8 2) := by
    decide
  obtain ⟨-, -, hdel, -, hboth⟩ :=
    claim_C8_cache_contained byteValEnc byteValDec byteKeyDec _ hsub
  obtain ⟨hb, hc⟩ := hboth 1 (by decide)
  exact ⟨hsub, hdel 1, hb, hc⟩

end EmbeddedDb
